import Mathlib

/-
Shallow embedding of src/algorithm.ts, a Leitner flashcard scheduler.

A BucketStore (TypeScript BucketMap, a JS Map from bucket number to a Set
of flashcards) is embedded as a List (Nat × Finset α): the list order is
the insertion order of the Map, which matters because Map.forEach iterates
in insertion order.  A BucketSchedule (Array of Sets) is a List (Finset α).
Flashcards are an arbitrary type with decidable equality: JS Sets compare
elements by reference identity, which the opaque element type models.
JS numbers that the algorithm uses as bucket indices are Nat (the spec
restricts bucket numbers to non-negative integers); the day counter is Int
so that negative days can be discussed; the progress percentage is Rat.
-/

section Model

variable {α : Type} [DecidableEq α]

/-- Modelled from the spec: the repository snapshot lacks src/flashcards.ts,
which declares the AnswerDifficulty enumeration imported by algorithm.ts.
The spec describes it as the ordered enumeration Wrong < Hard < Easy. -/
inductive AnswerDifficulty : Type where
  | Wrong : AnswerDifficulty
  | Hard : AnswerDifficulty
  | Easy : AnswerDifficulty
deriving DecidableEq, Repr

/-- Modelled from the spec: the numeric rank of an AnswerDifficulty value,
standing in for the TS numeric enum values in the missing flashcards.ts,
ordered Wrong < Hard < Easy as the spec states. -/
def rank : AnswerDifficulty → ℕ
  | AnswerDifficulty.Wrong => 0
  | AnswerDifficulty.Hard => 1
  | AnswerDifficulty.Easy => 2

/-- Lookup in an association list with a default, modelling JS Map.get
with a default for a missing key.  First match wins; a JS Map never holds
a duplicate key, so lists with Nodup keys are the faithful images. -/
def assocGetD {β : Type} : List (ℕ × β) → ℕ → β → β
  | [], _, d => d
  | kv :: rest, k, d => if kv.1 = k then kv.2 else assocGetD rest k d

/-- The set stored at bucket k, empty when k is not a key (buckets.get(k)). -/
def getBucket (b : List (ℕ × Finset α)) (k : ℕ) : Finset α :=
  assocGetD b k ∅

/-- Membership test for a key, modelling JS Map.has. -/
def hasKey {β : Type} (b : List (ℕ × β)) (k : ℕ) : Bool :=
  b.any (fun kv => kv.1 = k)

/-- Embedding of toBucketSets (src/algorithm.ts lines 21 to 34).
Math.max over the spread keys with the extra argument 0 is a fold of max
with base 0; new Array(n).fill(null).map(() to new Set) is n empty sets;
the forEach writes each bucket at its own index.  JS array index
assignment is List.set, in iteration order. -/
def toBucketSets (buckets : List (ℕ × Finset α)) : List (Finset α) :=
  let maxBucketNumber := (buckets.map Prod.fst).foldr max 0
  let result := (List.range (maxBucketNumber + 1)).map (fun _ => (∅ : Finset α))
  buckets.foldl (fun arr kv => arr.set kv.1 kv.2) result

/-- Embedding of the for loop of getBucketRange (lines 52 to 62): i counts
from the given start, the pair carries (minBucket, maxBucket), both -1
until a non-empty set is seen.  bucket instanceof Set always holds in the
model, so only size > 0 is tested. -/
def rangeGo : ℕ → List (Finset α) → ℤ × ℤ → ℤ × ℤ
  | _, [], acc => acc
  | i, s :: rest, acc =>
      rangeGo (i + 1) rest
        (if 0 < s.card then
          ((if acc.1 = -1 then (i : ℤ) else acc.1), (i : ℤ))
        else acc)

/-- Embedding of getBucketRange (lines 45 to 70): run the scan from index 0
with both trackers at -1; a final minBucket of -1 means undefined. -/
def getBucketRange (buckets : List (Finset α)) : Option (ℤ × ℤ) :=
  let p := rangeGo 0 buckets (-1, -1)
  if p.1 = -1 then none else some p

/-- Embedding of practice (lines 82 to 100): the loop visits indices
0 to day-1 and unions every bucket that exists at such an index, so it
unions exactly the first day entries of the list; a negative or zero day
gives an empty range.  Int.toNat clamps at 0 like the empty loop does. -/
def practice (buckets : List (Finset α)) (day : ℤ) : Finset α :=
  (buckets.take day.toNat).foldl (fun acc bucket => acc ∪ bucket) ∅

/-- Embedding of the forEach scan of update (lines 121 to 126) that locates
the bucket currently holding the card: forEach visits entries in insertion
order and the assignment keeps the last bucket that contains the card. -/
def findCurrentBucket (b : List (ℕ × Finset α)) (card : α) : Option ℕ :=
  b.foldl (fun acc kv => if card ∈ kv.2 then some kv.1 else acc) none

/-- Embedding of the switch of update (lines 135 to 149): the destination
bucket for a difficulty.  Math.max(0, current - 1) is written literally
over Int and brought back to Nat. -/
def destBucket (current : ℕ) : AnswerDifficulty → ℕ
  | AnswerDifficulty.Wrong => (max 0 ((current : ℤ) - 1)).toNat
  | AnswerDifficulty.Hard => current
  | AnswerDifficulty.Easy => current + 1

/-- Embedding of update (lines 112 to 161) at the level of store values:
copy the map, locate the card, return the original store when it is
absent, otherwise erase the card from the located bucket, create the
destination bucket when missing (Map.set appends a fresh key), and insert
the card there.  Map.get(k) followed by an in-place Set mutation is the
entrywise rewrite of the entry with key k. -/
def update (buckets : List (ℕ × Finset α)) (card : α)
    (difficulty : AnswerDifficulty) : List (ℕ × Finset α) :=
  match findCurrentBucket buckets card with
  | none => buckets
  | some currentBucket =>
    let newBucket := destBucket currentBucket difficulty
    let b1 := buckets.map
      (fun kv => if kv.1 = currentBucket then (kv.1, kv.2.erase card) else kv)
    let b2 := if hasKey b1 newBucket then b1 else b1 ++ [(newBucket, ∅)]
    b2.map (fun kv => if kv.1 = newBucket then (kv.1, insert card kv.2) else kv)

/-- Embedding of the console.error side channel of update (line 130): the
messages update emits; exactly one diagnostic when the card is absent. -/
def updateLog (buckets : List (ℕ × Finset α)) (card : α) : List String :=
  match findCurrentBucket buckets card with
  | none => ["Flashcard not found in any bucket"]
  | some _ => []

/-- Embedding of computeProgress (lines 185 to 214): total cards is the
sum of bucket sizes, the success count tallies history entries whose
difficulty is at least Hard under the enum order, the quotient is guarded
against a zero denominator.  JS number arithmetic is modelled in Rat. -/
def computeProgress (buckets : List (ℕ × Finset α))
    (history : List (α × AnswerDifficulty)) : ℚ :=
  let totalFlashcards := buckets.foldl (fun acc kv => acc + kv.2.card) (0 : ℕ)
  let correctlyAnswered := history.foldl
    (fun acc entry =>
      if rank AnswerDifficulty.Hard ≤ rank entry.2 then acc + 1 else acc)
    (0 : ℕ)
  if totalFlashcards = 0 then 0
  else ((correctlyAnswered : ℚ) / (totalFlashcards : ℚ)) * 100

/-!
Reference-level model of update.  JS Sets are heap objects; new Map(m) is
a shallow copy sharing the Set references, so the in-place Set mutations
of update are visible through the original map.  A store at this level is
a list of (bucket number, set reference); the heap maps references to
Finset contents; nextRef supplies fresh references for new Set().
-/

/-- Heap of Set objects plus an allocator for fresh references. -/
structure JSState (α : Type) where
  heap : List (ℕ × Finset α)
  nextRef : ℕ
deriving DecidableEq

/-- In-place mutation of the Set object behind a reference. -/
def heapModify (heap : List (ℕ × Finset α)) (r : ℕ)
    (f : Finset α → Finset α) : List (ℕ × Finset α) :=
  heap.map (fun kv => if kv.1 = r then (kv.1, f kv.2) else kv)

/-- Contents a store maps each bucket number to, read through the heap. -/
def viewStore (st : JSState α) (store : List (ℕ × ℕ)) :
    List (ℕ × Finset α) :=
  store.map (fun kv => (kv.1, assocGetD st.heap kv.2 ∅))

/-- Embedding of update (lines 112 to 161) at the reference level:
new Map(buckets) copies the key-to-reference entries and shares every Set
object; delete and add mutate the shared objects on the heap; only the
destination bucket, when absent, gets a freshly allocated Set. -/
def updateImpl (st : JSState α) (buckets : List (ℕ × ℕ)) (card : α)
    (difficulty : AnswerDifficulty) : JSState α × List (ℕ × ℕ) :=
  let updatedBuckets := buckets
  let current := updatedBuckets.foldl
    (fun acc kv => if card ∈ assocGetD st.heap kv.2 ∅ then some kv.1 else acc)
    none
  match current with
  | none => (st, buckets)
  | some currentBucket =>
    let newBucket := destBucket currentBucket difficulty
    let h1 := heapModify st.heap (assocGetD updatedBuckets currentBucket 0)
      (fun s => s.erase card)
    let next := st.nextRef
    let step :=
      if hasKey updatedBuckets newBucket then (h1, next, updatedBuckets)
      else (h1 ++ [(next, ∅)], next + 1, updatedBuckets ++ [(newBucket, next)])
    let h3 := heapModify step.1 (assocGetD step.2.2 newBucket 0) (insert card)
    (⟨h3, step.2.1⟩, step.2.2)

/-- Invariant stated by the spec for BucketStore: no card may occupy two
different buckets (bucket contents are read through getBucket, the
embedding of Map.get with an empty default). -/
def StoreInv (b : List (ℕ × Finset α)) : Prop :=
  ∀ (x : α) (i j : ℕ), x ∈ getBucket b i → x ∈ getBucket b j → i = j

/-- Position of the first non-empty set in a schedule, the reference value
against which the minBucket tracker of the getBucketRange scan is
verified. -/
def firstNE : List (Finset α) → Option ℕ
  | [] => none
  | s :: rest => if 0 < s.card then some 0 else (firstNE rest).map (· + 1)

/-- Position of the last non-empty set in a schedule, the reference value
against which the maxBucket tracker of the getBucketRange scan is
verified. -/
def lastNE : List (Finset α) → Option ℕ
  | [] => none
  | s :: rest =>
    match lastNE rest with
    | some j => some (j + 1)
    | none => if 0 < s.card then some 0 else none

end Model

section Lemmas

variable {α : Type} [DecidableEq α]

omit [DecidableEq α] in
lemma getBucket_nil (k : ℕ) : getBucket ([] : List (ℕ × Finset α)) k = ∅ := rfl

omit [DecidableEq α] in
lemma getBucket_cons (p : ℕ × Finset α) (rest : List (ℕ × Finset α)) (k : ℕ) :
    getBucket (p :: rest) k = if p.1 = k then p.2 else getBucket rest k := rfl

lemma mem_keys_of_mem_getBucket {b : List (ℕ × Finset α)} {k : ℕ} {c : α}
    (hc : c ∈ getBucket b k) : k ∈ b.map Prod.fst := by
  induction b with
  | nil => simp [getBucket, assocGetD] at hc
  | cons p rest ih =>
    rw [getBucket_cons] at hc
    by_cases h : p.1 = k
    · simp [h]
    · rw [if_neg h] at hc
      simp [ih hc]

lemma getBucket_eq_of_mem_nodup {b : List (ℕ × Finset α)}
    (hnd : (b.map Prod.fst).Nodup) {p : ℕ × Finset α} (hp : p ∈ b) :
    getBucket b p.1 = p.2 := by
  induction b with
  | nil => simp at hp
  | cons q rest ih =>
    have hnd' : q.1 ∉ rest.map Prod.fst ∧ (rest.map Prod.fst).Nodup := by
      rw [List.map_cons, List.nodup_cons] at hnd
      exact hnd
    rcases List.mem_cons.mp hp with h | h
    · rw [h, getBucket_cons, if_pos rfl]
    · have hne : q.1 ≠ p.1 := fun he =>
        hnd'.1 (he ▸ List.mem_map_of_mem Prod.fst h)
      rw [getBucket_cons, if_neg hne]
      exact ih hnd'.2 h

lemma hasKey_eq_true_iff {β : Type} (b : List (ℕ × β)) (k : ℕ) :
    hasKey b k = true ↔ k ∈ b.map Prod.fst := by
  simp only [hasKey, List.any_eq_true, decide_eq_true_eq, List.mem_map]

lemma findCurrentBucket_aux_of_absent {b : List (ℕ × Finset α)} {c : α}
    (h : ∀ p ∈ b, c ∉ p.2) (acc : Option ℕ) :
    b.foldl (fun acc kv => if c ∈ kv.2 then some kv.1 else acc) acc = acc := by
  induction b generalizing acc with
  | nil => rfl
  | cons p rest ih =>
    have hp : c ∉ p.2 := h p (List.mem_cons_self p rest)
    simp only [List.foldl_cons, if_neg hp]
    exact ih (fun q hq => h q (List.mem_cons_of_mem p hq)) acc

lemma findCurrentBucket_aux_of_present {b : List (ℕ × Finset α)} {c : α} {k : ℕ}
    (honly : ∀ p ∈ b, c ∈ p.2 → p.1 = k) (hex : ∃ p ∈ b, c ∈ p.2)
    (acc : Option ℕ) :
    b.foldl (fun acc kv => if c ∈ kv.2 then some kv.1 else acc) acc = some k := by
  induction b generalizing acc with
  | nil => simp at hex
  | cons p rest ih =>
    simp only [List.foldl_cons]
    by_cases hrest : ∃ q ∈ rest, c ∈ q.2
    · exact ih (fun q hq => honly q (List.mem_cons_of_mem p hq)) hrest _
    · have hp : c ∈ p.2 := by
        rcases hex with ⟨q, hq, hcq⟩
        rcases List.mem_cons.mp hq with h | h
        · exact h ▸ hcq
        · exact absurd ⟨q, h, hcq⟩ hrest
      have hk : p.1 = k := honly p (List.mem_cons_self p rest) hp
      rw [if_pos hp, hk]
      exact findCurrentBucket_aux_of_absent
        (fun q hq hcq => hrest ⟨q, hq, hcq⟩) (some k)

lemma findCurrentBucket_of_absent {b : List (ℕ × Finset α)} {c : α}
    (h : ∀ p ∈ b, c ∉ p.2) : findCurrentBucket b c = none :=
  findCurrentBucket_aux_of_absent h none

lemma findCurrentBucket_of_present {b : List (ℕ × Finset α)} {c : α} {k : ℕ}
    (honly : ∀ p ∈ b, c ∈ p.2 → p.1 = k) (hex : ∃ p ∈ b, c ∈ p.2) :
    findCurrentBucket b c = some k :=
  findCurrentBucket_aux_of_present honly hex none

lemma mem_foldl_union (l : List (Finset α)) (init : Finset α) (x : α) :
    x ∈ l.foldl (fun acc t => acc ∪ t) init ↔ x ∈ init ∨ ∃ t ∈ l, x ∈ t := by
  induction l generalizing init with
  | nil => simp
  | cons s rest ih =>
    simp only [List.foldl_cons, ih, Finset.mem_union, List.mem_cons]
    constructor
    · rintro ((h | h) | ⟨t, ht, hx⟩)
      · exact Or.inl h
      · exact Or.inr ⟨s, Or.inl rfl, h⟩
      · exact Or.inr ⟨t, Or.inr ht, hx⟩
    · rintro (h | ⟨t, (rfl | ht), hx⟩)
      · exact Or.inl (Or.inl h)
      · exact Or.inl (Or.inr hx)
      · exact Or.inr ⟨t, ht, hx⟩

omit [DecidableEq α] in
lemma mem_take_iff_getD (l : List (Finset α)) : ∀ (n : ℕ) (t : Finset α),
    t ∈ l.take n ↔ ∃ i, i < n ∧ i < l.length ∧ l.getD i ∅ = t := by
  induction l with
  | nil => simp
  | cons s rest ih =>
    intro n t
    cases n with
    | zero => simp
    | succ m =>
      simp only [List.take_succ_cons, List.mem_cons, ih m t, List.length_cons]
      constructor
      · rintro (h | ⟨i, h1, h2, h3⟩)
        · exact ⟨0, Nat.succ_pos m, Nat.succ_pos _, by simp [h.symm]⟩
        · exact ⟨i + 1, by omega, by omega, by simpa using h3⟩
      · rintro ⟨i, h1, h2, h3⟩
        cases i with
        | zero =>
          left
          simp only [List.getD_cons_zero] at h3
          exact h3.symm
        | succ j =>
          right
          exact ⟨j, by omega, by omega, by simpa using h3⟩

lemma mem_practice_iff (s : List (Finset α)) (d : ℕ) (x : α) :
    x ∈ practice s (d : ℤ) ↔ ∃ i, i < d ∧ i < s.length ∧ x ∈ s.getD i ∅ := by
  rw [practice, Int.toNat_natCast, mem_foldl_union]
  simp only [Finset.not_mem_empty, false_or]
  constructor
  · rintro ⟨t, ht, hx⟩
    rcases (mem_take_iff_getD s d t).mp ht with ⟨i, h1, h2, h3⟩
    exact ⟨i, h1, h2, h3 ▸ hx⟩
  · rintro ⟨i, h1, h2, hx⟩
    exact ⟨s.getD i ∅, (mem_take_iff_getD s d _).mpr ⟨i, h1, h2, rfl⟩, hx⟩

lemma exists_entry_of_mem_getBucket {b : List (ℕ × Finset α)} {k : ℕ} {c : α}
    (hc : c ∈ getBucket b k) : ∃ p ∈ b, p.1 = k ∧ c ∈ p.2 := by
  induction b with
  | nil => simp [getBucket, assocGetD] at hc
  | cons p rest ih =>
    rw [getBucket_cons] at hc
    by_cases h : p.1 = k
    · rw [if_pos h] at hc
      exact ⟨p, List.mem_cons_self p rest, h, hc⟩
    · rw [if_neg h] at hc
      rcases ih hc with ⟨q, hq, h1, h2⟩
      exact ⟨q, List.mem_cons_of_mem p hq, h1, h2⟩

lemma findCurrentBucket_aux_mem {b : List (ℕ × Finset α)} {c : α} {k : ℕ}
    (acc : Option ℕ)
    (h : b.foldl (fun acc kv => if c ∈ kv.2 then some kv.1 else acc) acc
      = some k) :
    acc = some k ∨ ∃ p ∈ b, p.1 = k ∧ c ∈ p.2 := by
  induction b generalizing acc with
  | nil => exact Or.inl h
  | cons p rest ih =>
    rw [List.foldl_cons] at h
    rcases ih _ h with h' | ⟨q, hq, h1, h2⟩
    · by_cases hp : c ∈ p.2
      · rw [if_pos hp] at h'
        exact Or.inr ⟨p, List.mem_cons_self p rest, Option.some_inj.mp h', hp⟩
      · rw [if_neg hp] at h'
        exact Or.inl h'
    · exact Or.inr ⟨q, List.mem_cons_of_mem p hq, h1, h2⟩

lemma findCurrentBucket_mem {b : List (ℕ × Finset α)} {c : α} {k : ℕ}
    (h : findCurrentBucket b c = some k) : ∃ p ∈ b, p.1 = k ∧ c ∈ p.2 := by
  rcases findCurrentBucket_aux_mem none h with h' | h'
  · exact absurd h' (by simp)
  · exact h'

lemma getBucket_map_erase (b : List (ℕ × Finset α)) (t j : ℕ) (c : α) :
    getBucket
        (b.map (fun kv => if kv.1 = t then (kv.1, kv.2.erase c) else kv)) j
      = if j = t then (getBucket b j).erase c else getBucket b j := by
  induction b with
  | nil =>
    rw [List.map_nil, getBucket_nil]
    split_ifs
    · exact (Finset.erase_empty c).symm
    · rfl
  | cons p rest ih =>
    rw [List.map_cons]
    by_cases hpt : p.1 = t
    · rw [if_pos hpt, getBucket_cons, getBucket_cons]
      by_cases hpj : p.1 = j
      · rw [if_pos hpj, if_pos hpj, if_pos (by omega : j = t)]
      · rw [if_neg hpj, if_neg hpj, ih]
    · rw [if_neg hpt, getBucket_cons, getBucket_cons]
      by_cases hpj : p.1 = j
      · rw [if_pos hpj, if_pos hpj, if_neg (by omega : ¬ j = t)]
      · rw [if_neg hpj, if_neg hpj, ih]

lemma map_insert_not_key (rest : List (ℕ × Finset α)) (t : ℕ) (c : α)
    (h : t ∉ rest.map Prod.fst) :
    rest.map (fun kv => if kv.1 = t then (kv.1, insert c kv.2) else kv)
      = rest := by
  induction rest with
  | nil => rfl
  | cons q r ih =>
    have hq : q.1 ≠ t := by
      intro he
      exact h (by simp [← he])
    rw [List.map_cons, if_neg hq, ih (fun hm => h (by simp [hm]))]

lemma getBucket_map_insert (b : List (ℕ × Finset α)) (t j : ℕ) (c : α)
    (ht : t ∈ b.map Prod.fst) :
    getBucket (b.map (fun kv => if kv.1 = t then (kv.1, insert c kv.2) else kv)) j
      = if j = t then insert c (getBucket b j) else getBucket b j := by
  induction b with
  | nil => simp at ht
  | cons p rest ih =>
    rw [List.map_cons]
    by_cases hpt : p.1 = t
    · rw [if_pos hpt, getBucket_cons, getBucket_cons]
      by_cases hpj : p.1 = j
      · rw [if_pos hpj, if_pos hpj, if_pos (by omega : j = t)]
      · rw [if_neg hpj, if_neg hpj]
        by_cases hjt : j = t
        · exact absurd (hpt.trans hjt.symm) hpj
        · rw [if_neg hjt]
          by_cases hrest : t ∈ rest.map Prod.fst
          · rw [ih hrest, if_neg hjt]
          · rw [map_insert_not_key rest t c hrest]
    · rw [if_neg hpt, getBucket_cons, getBucket_cons]
      have hrest : t ∈ rest.map Prod.fst := by
        rcases List.mem_map.mp ht with ⟨q, hq, hqt⟩
        rcases List.mem_cons.mp hq with h | h
        · exact absurd (h ▸ hqt) hpt
        · exact hqt ▸ List.mem_map_of_mem Prod.fst h
      by_cases hpj : p.1 = j
      · rw [if_pos hpj, if_pos hpj, if_neg (by omega : ¬ j = t)]
      · rw [if_neg hpj, if_neg hpj, ih hrest]

lemma getBucket_append (b b' : List (ℕ × Finset α)) (j : ℕ) :
    getBucket (b ++ b') j
      = if j ∈ b.map Prod.fst then getBucket b j else getBucket b' j := by
  induction b with
  | nil => simp [getBucket_nil]
  | cons p rest ih =>
    rw [List.cons_append, getBucket_cons, getBucket_cons]
    by_cases hpj : p.1 = j
    · rw [if_pos hpj, if_pos (by simp [hpj])]
      rw [if_pos hpj]
    · rw [if_neg hpj, if_neg hpj, ih]
      by_cases hj : j ∈ rest.map Prod.fst
      · rw [if_pos hj, if_pos (by simp [hj])]
      · rw [if_neg hj, if_neg (by simp [hpj, hj, Ne.symm])]

lemma keys_map_entrywise {β : Type} (b : List (ℕ × β))
    (g : ℕ × β → ℕ × β) (hg : ∀ p, (g p).1 = p.1) :
    (b.map g).map Prod.fst = b.map Prod.fst := by
  rw [List.map_map]
  exact List.map_congr_left (fun p _ => hg p)

lemma getBucket_eq_empty_of_not_key {b : List (ℕ × Finset α)} {k : ℕ}
    (h : k ∉ b.map Prod.fst) : getBucket b k = ∅ := by
  by_contra hne
  rcases Finset.nonempty_iff_ne_empty.mpr hne with ⟨x, hx⟩
  exact h (mem_keys_of_mem_getBucket hx)

lemma map_entry_id {β : Type} {b : List (ℕ × β)} {g : ℕ × β → ℕ × β}
    (h : ∀ p ∈ b, g p = p) : b.map g = b :=
  (List.map_congr_left h).trans (List.map_id b)

lemma destBucket_wrong (k : ℕ) :
    destBucket k AnswerDifficulty.Wrong = k - 1 := by
  simp only [destBucket]
  omega

lemma update_getBucket {b : List (ℕ × Finset α)} {c : α} {k : ℕ}
    (d : AnswerDifficulty) (hfind : findCurrentBucket b c = some k) (j : ℕ) :
    getBucket (update b c d) j =
      if j = destBucket k d then
        insert c (if destBucket k d = k then (getBucket b k).erase c
          else getBucket b (destBucket k d))
      else if j = k then (getBucket b k).erase c
      else getBucket b j := by
  have hkkey : k ∈ b.map Prod.fst := by
    rcases findCurrentBucket_mem hfind with ⟨p, hp, h1, _⟩
    exact h1 ▸ List.mem_map_of_mem Prod.fst hp
  simp only [update, hfind]
  set nb := destBucket k d with hnb
  set b1 := b.map (fun kv => if kv.1 = k then (kv.1, kv.2.erase c) else kv)
    with hb1
  have hb1keys : b1.map Prod.fst = b.map Prod.fst :=
    keys_map_entrywise _ _ (fun p => by by_cases h : p.1 = k <;> simp [h])
  have hb1get : ∀ i, getBucket b1 i
      = if i = k then (getBucket b i).erase c else getBucket b i :=
    fun i => getBucket_map_erase b k i c
  by_cases hhk : hasKey b1 nb = true
  · rw [if_pos hhk]
    have hnbkey : nb ∈ b1.map Prod.fst := (hasKey_eq_true_iff b1 nb).mp hhk
    rw [getBucket_map_insert b1 nb j c hnbkey]
    by_cases hj1 : j = nb
    · subst hj1
      rw [if_pos rfl, if_pos rfl, hb1get nb]
      by_cases h2 : nb = k
      · rw [if_pos h2, if_pos h2, h2]
      · rw [if_neg h2, if_neg h2]
    · rw [if_neg hj1, if_neg hj1, hb1get j]
      by_cases hjk : j = k
      · rw [if_pos hjk, if_pos hjk, hjk]
      · rw [if_neg hjk, if_neg hjk]
  · rw [if_neg hhk]
    have hnbnotkey : nb ∉ b.map Prod.fst :=
      fun hm => hhk ((hasKey_eq_true_iff b1 nb).mpr (hb1keys ▸ hm))
    have hnbne : ¬ nb = k := fun he => hnbnotkey (he ▸ hkkey)
    have hnbkey2 : nb ∈ (b1 ++ [(nb, ∅)]).map Prod.fst := by simp
    rw [getBucket_map_insert _ nb j c hnbkey2]
    by_cases hj1 : j = nb
    · subst hj1
      rw [if_pos rfl, if_pos rfl, getBucket_append, hb1keys,
        if_neg hnbnotkey, if_neg hnbne, getBucket_cons, if_pos rfl,
        getBucket_eq_empty_of_not_key hnbnotkey]
    · rw [if_neg hj1, if_neg hj1, getBucket_append, hb1keys]
      by_cases hjk : j ∈ b.map Prod.fst
      · rw [if_pos hjk, hb1get j]
        by_cases hjk2 : j = k
        · rw [if_pos hjk2, if_pos hjk2, hjk2]
        · rw [if_neg hjk2, if_neg hjk2]
      · rw [if_neg hjk]
        have h3 : ¬ j = k := fun he => hjk (he ▸ hkkey)
        rw [if_neg h3, getBucket_cons, if_neg (fun h => hj1 h.symm),
          getBucket_nil, getBucket_eq_empty_of_not_key hjk]

lemma keys_update_mono {b : List (ℕ × Finset α)} {c : α} {k : ℕ}
    (d : AnswerDifficulty) (hfind : findCurrentBucket b c = some k) (j : ℕ)
    (hj : j ∈ b.map Prod.fst) : j ∈ (update b c d).map Prod.fst := by
  simp only [update, hfind]
  rw [keys_map_entrywise _ _
    (fun p => by by_cases h : p.1 = destBucket k d <;> simp [h])]
  split_ifs with hhk
  · rw [keys_map_entrywise _ _ (fun p => by by_cases h : p.1 = k <;> simp [h])]
    exact hj
  · rw [List.map_append]
    exact List.mem_append_left _ (by
      rw [keys_map_entrywise _ _
        (fun p => by by_cases h : p.1 = k <;> simp [h])]
      exact hj)

lemma update_hard_eq {b : List (ℕ × Finset α)} {c : α} {k : ℕ}
    (hnd : (b.map Prod.fst).Nodup) (hck : c ∈ getBucket b k)
    (hfind : findCurrentBucket b c = some k) :
    update b c AnswerDifficulty.Hard = b := by
  have hnbk : destBucket k AnswerDifficulty.Hard = k := rfl
  simp only [update, hfind, hnbk]
  have hhk : hasKey
      (b.map (fun kv => if kv.1 = k then (kv.1, kv.2.erase c) else kv)) k
        = true := by
    rw [hasKey_eq_true_iff,
      keys_map_entrywise _ _ (fun p => by by_cases h : p.1 = k <;> simp [h])]
    rcases exists_entry_of_mem_getBucket hck with ⟨p, hp, h1, _⟩
    exact h1 ▸ List.mem_map_of_mem Prod.fst hp
  rw [if_pos hhk, List.map_map]
  refine map_entry_id (fun p hp => ?_)
  by_cases h : p.1 = k
  · have hc2 : c ∈ p.2 := by
      have he := getBucket_eq_of_mem_nodup hnd hp
      rw [h] at he
      exact he ▸ hck
    simp [Function.comp_apply, h, Finset.insert_erase hc2]
    rw [← h]
  · simp [Function.comp_apply, h]

lemma foldl_add_card (b : List (ℕ × Finset α)) : ∀ n : ℕ,
    b.foldl (fun acc kv => acc + kv.2.card) n
      = n + (b.map fun kv => kv.2.card).sum := by
  induction b with
  | nil => intro n; simp
  | cons p rest ih =>
    intro n
    rw [List.foldl_cons, ih, List.map_cons, List.sum_cons]
    omega

lemma foldl_success_count (history : List (α × AnswerDifficulty)) : ∀ n : ℕ,
    history.foldl
      (fun acc entry =>
        if rank AnswerDifficulty.Hard ≤ rank entry.2 then acc + 1 else acc) n
      = n + (history.filter (fun e =>
          e.2 = AnswerDifficulty.Hard ∨ e.2 = AnswerDifficulty.Easy)).length := by
  induction history with
  | nil => intro n; simp
  | cons e rest ih =>
    intro n
    rcases e with ⟨a, diff⟩
    cases diff with
    | Wrong =>
      rw [List.foldl_cons, ih, List.filter_cons]
      simp [rank] <;> omega
    | Hard =>
      rw [List.foldl_cons, ih, List.filter_cons]
      simp [rank] <;> omega
    | Easy =>
      rw [List.foldl_cons, ih, List.filter_cons]
      simp [rank] <;> omega

lemma getD_set_split (l : List (Finset α)) : ∀ (n i : ℕ) (a : Finset α),
    (l.set n a).getD i ∅ = if i = n ∧ n < l.length then a else l.getD i ∅ := by
  induction l with
  | nil => intro n i a; simp
  | cons x xs ih =>
    intro n i a
    cases n with
    | zero =>
      cases i with
      | zero => simp
      | succ j => simp
    | succ m =>
      cases i with
      | zero => simp
      | succ j =>
        rw [List.set_cons_succ, List.getD_cons_succ, List.getD_cons_succ,
          ih m j a, List.length_cons]
        by_cases h : j = m ∧ m < xs.length
        · rw [if_pos h, if_pos (by omega)]
        · rw [if_neg h, if_neg (by omega)]

lemma getD_all_empty (l : List (Finset α)) (h : ∀ t ∈ l, t = ∅) (i : ℕ) :
    l.getD i ∅ = ∅ := by
  induction l generalizing i with
  | nil => simp
  | cons x xs ih =>
    cases i with
    | zero =>
      rw [List.getD_cons_zero]
      exact h x (List.mem_cons_self x xs)
    | succ j =>
      rw [List.getD_cons_succ]
      exact ih (fun t ht => h t (List.mem_cons_of_mem x ht)) j

lemma length_foldl_set (b : List (ℕ × Finset α)) :
    ∀ init : List (Finset α),
      (b.foldl (fun arr kv => arr.set kv.1 kv.2) init).length = init.length := by
  induction b with
  | nil => intro init; rfl
  | cons p rest ih =>
    intro init
    rw [List.foldl_cons, ih, List.length_set]

lemma getD_foldl_set (b : List (ℕ × Finset α)) :
    ∀ (hnd : (b.map Prod.fst).Nodup) (init : List (Finset α)) (i : ℕ),
      (∀ p ∈ b, p.1 < init.length) →
      (b.foldl (fun arr kv => arr.set kv.1 kv.2) init).getD i ∅
        = if i ∈ b.map Prod.fst then getBucket b i else init.getD i ∅ := by
  induction b with
  | nil => intro _ init i _; simp
  | cons p rest ih =>
    intro hnd init i hbound
    have hnd' : p.1 ∉ rest.map Prod.fst ∧ (rest.map Prod.fst).Nodup := by
      rw [List.map_cons, List.nodup_cons] at hnd
      exact hnd
    rw [List.foldl_cons,
      ih hnd'.2 (init.set p.1 p.2) i
        (fun q hq => by
          rw [List.length_set]
          exact hbound q (List.mem_cons_of_mem p hq))]
    by_cases hir : i ∈ rest.map Prod.fst
    · rw [if_pos hir, if_pos (by simp [hir])]
      have hpi : ¬ p.1 = i := fun he => hnd'.1 (he ▸ hir)
      rw [getBucket_cons, if_neg hpi]
    · rw [if_neg hir, getD_set_split]
      by_cases hip : i = p.1
      · have hlen : p.1 < init.length := hbound p (List.mem_cons_self p rest)
        rw [if_pos ⟨hip, hlen⟩, if_pos (by simp [hip]),
          getBucket_cons, if_pos hip.symm]
      · rw [if_neg (fun h => hip h.1),
          if_neg (by
            rw [List.map_cons, List.mem_cons]
            rintro (h | h)
            · exact hip h
            · exact hir h)]

lemma rangeGo_fst (l : List (Finset α)) : ∀ (i : ℕ) (acc : ℤ × ℤ),
    (rangeGo i l acc).1 =
      match firstNE l with
      | some j => if acc.1 = -1 then ((i : ℤ) + j) else acc.1
      | none => acc.1 := by
  induction l with
  | nil => intro i acc; rfl
  | cons s rest ih =>
    intro i acc
    rw [rangeGo]
    by_cases hs : 0 < s.card
    · rw [if_pos hs, ih]
      have hi : ¬ ((i : ℤ) = -1) := by omega
      simp only [firstNE, if_pos hs]
      cases firstNE rest <;> by_cases hmn : acc.1 = -1 <;>
        simp [hmn, hi] <;> ring
    · rw [if_neg hs, ih]
      simp only [firstNE, if_neg hs]
      cases firstNE rest <;> by_cases hmn : acc.1 = -1 <;>
        simp [hmn] <;> ring

lemma rangeGo_snd (l : List (Finset α)) : ∀ (i : ℕ) (acc : ℤ × ℤ),
    (rangeGo i l acc).2 =
      match lastNE l with
      | some j => ((i : ℤ) + j)
      | none => acc.2 := by
  induction l with
  | nil => intro i acc; rfl
  | cons s rest ih =>
    intro i acc
    rw [rangeGo]
    by_cases hs : 0 < s.card
    · rw [if_pos hs, ih]
      simp only [lastNE]
      cases lastNE rest <;> simp [hs] <;> ring
    · rw [if_neg hs, ih]
      simp only [lastNE]
      cases lastNE rest <;> simp [hs] <;> ring

omit [DecidableEq α] in
lemma firstNE_none_iff (l : List (Finset α)) :
    firstNE l = none ↔ ∀ t ∈ l, ¬ 0 < t.card := by
  induction l with
  | nil => simp [firstNE]
  | cons s rest ih =>
    simp only [firstNE]
    by_cases hs : 0 < s.card
    · exact iff_of_false (by simp [hs])
        (fun hall => hall s (List.mem_cons_self s rest) hs)
    · cases hf : firstNE rest with
      | some j =>
        refine iff_of_false (by simp [hs]) (fun hall => ?_)
        have h0 : firstNE rest = none :=
          ih.mpr (fun t ht => hall t (List.mem_cons_of_mem s ht))
        rw [hf] at h0
        exact absurd h0 (by simp)
      | none =>
        refine iff_of_true (by simp [hs]) ?_
        intro t ht
        rcases List.mem_cons.mp ht with h' | h'
        · exact h'.symm ▸ hs
        · exact (ih.mp hf) t h'

omit [DecidableEq α] in
lemma lastNE_none_iff (l : List (Finset α)) :
    lastNE l = none ↔ ∀ t ∈ l, ¬ 0 < t.card := by
  induction l with
  | nil => simp [lastNE]
  | cons s rest ih =>
    simp only [lastNE]
    cases hl : lastNE rest with
    | some j =>
      refine iff_of_false (by simp) (fun hall => ?_)
      have h0 : lastNE rest = none :=
        ih.mpr (fun t ht => hall t (List.mem_cons_of_mem s ht))
      rw [hl] at h0
      exact absurd h0 (by simp)
    | none =>
      by_cases hs : 0 < s.card
      · exact iff_of_false (by simp [hs])
          (fun hall => hall s (List.mem_cons_self s rest) hs)
      · refine iff_of_true (by simp [hs]) ?_
        intro t ht
        rcases List.mem_cons.mp ht with h' | h'
        · exact h'.symm ▸ hs
        · exact (ih.mp hl) t h'

omit [DecidableEq α] in
lemma firstNE_some_spec (l : List (Finset α)) : ∀ j : ℕ, firstNE l = some j →
    j < l.length ∧ 0 < (l.getD j ∅).card
      ∧ ∀ j' < j, ¬ 0 < (l.getD j' ∅).card := by
  induction l with
  | nil => intro j h; simp [firstNE] at h
  | cons s rest ih =>
    intro j h
    rw [firstNE] at h
    by_cases hs : 0 < s.card
    · rw [if_pos hs] at h
      have hj : j = 0 := (Option.some_inj.mp h).symm
      subst hj
      exact ⟨Nat.succ_pos _, by simpa using hs, fun j' hj' => absurd hj' (by omega)⟩
    · rw [if_neg hs] at h
      rcases Option.map_eq_some.mp h with ⟨j0, hj0, hj0e⟩
      rcases ih j0 hj0 with ⟨h1, h2, h3⟩
      subst hj0e
      refine ⟨by simpa using h1, by simpa using h2, ?_⟩
      intro j' hj'
      cases j' with
      | zero => simpa using hs
      | succ m =>
        rw [List.getD_cons_succ]
        exact h3 m (by omega)

omit [DecidableEq α] in
lemma lastNE_some_spec (l : List (Finset α)) : ∀ j : ℕ, lastNE l = some j →
    j < l.length ∧ 0 < (l.getD j ∅).card
      ∧ ∀ j', j < j' → j' < l.length → ¬ 0 < (l.getD j' ∅).card := by
  induction l with
  | nil => intro j h; simp [lastNE] at h
  | cons s rest ih =>
    intro j h
    rw [lastNE] at h
    cases hl : lastNE rest with
    | some j0 =>
      rw [hl] at h
      simp only at h
      have hj : j = j0 + 1 := (Option.some_inj.mp h).symm
      subst hj
      rcases ih j0 hl with ⟨h1, h2, h3⟩
      refine ⟨by simpa using h1, by simpa using h2, ?_⟩
      intro j' hlt hlen
      cases j' with
      | zero => omega
      | succ m =>
        rw [List.getD_cons_succ]
        exact h3 m (by omega) (by simpa using hlen)
    | none =>
      rw [hl] at h
      simp only at h
      by_cases hs : 0 < s.card
      · rw [if_pos hs] at h
        have hj : j = 0 := (Option.some_inj.mp h).symm
        subst hj
        refine ⟨Nat.succ_pos _, by simpa using hs, ?_⟩
        intro j' hlt hlen
        cases j' with
        | zero => omega
        | succ m =>
          rw [List.getD_cons_succ]
          have hm : m < rest.length := by simpa using hlen
          have hmem : rest.getD m ∅ ∈ rest := by
            rw [List.getD_eq_getElem rest ∅ hm]
            exact rest.getElem_mem hm
          exact (lastNE_none_iff rest).mp hl _ hmem
      · rw [if_neg hs] at h
        exact absurd h (by simp)

lemma le_foldr_max {l : List ℕ} {k : ℕ} (h : k ∈ l) : k ≤ l.foldr max 0 := by
  induction l with
  | nil => simp at h
  | cons x xs ih =>
    rw [List.foldr_cons]
    rcases List.mem_cons.mp h with h | h
    · subst h
      exact le_max_left k _
    · exact le_trans (ih h) (le_max_right x _)

end Lemmas

section Claims

variable {α : Type} [DecidableEq α]

/-- C1: the claim says update never mutates the input store, but the code
takes only a shallow copy of the map and mutates the shared Set objects in
place: on the store mapping bucket 2 (through reference 0) to the single
card 7, an update with Wrong deletes the card from the shared set, so the
input store afterwards maps bucket 2 to the empty set. -/
theorem updateImpl_mutates_input :
    viewStore (updateImpl (JSState.mk [(0, ({7} : Finset ℕ))] 1) [(2, 0)] 7
        AnswerDifficulty.Wrong).1 [(2, 0)]
      ≠ viewStore (JSState.mk [(0, ({7} : Finset ℕ))] 1) [(2, 0)] := by decide

/-- C2: the claim (and the repository test, which expects the empty array)
says toBucketSets of an empty store has length 0, but the code computes
Math.max of no keys and 0 as 0 and builds an array of length 1 holding one
empty set. -/
theorem toBucketSets_empty_store_eval :
    toBucketSets ([] : List (ℕ × Finset ℕ)) = [∅] := rfl

/-- C10: practice with a day number at most 0 returns the empty set: the
loop over indices below the day runs zero times. -/
theorem practice_nonpos_day (s : List (Finset α)) (d : ℤ) (hd : d ≤ 0) :
    practice s d = ∅ := by
  have h0 : d.toNat = 0 := Int.toNat_of_nonpos hd
  simp [practice, h0]

/-- Witness for C10 at the schedule with one singleton bucket and day -2. -/
theorem practice_nonpos_day_witness :
    ((-2 : ℤ) ≤ 0) ∧ practice [({3} : Finset ℕ)] (-2) = ∅ :=
  ⟨by decide, practice_nonpos_day _ _ (by decide)⟩

/-- C4: practice unions exactly the buckets at indices 0 to day-1, index
day itself excluded (stated as a membership characterisation); on day 0 it
is empty; once the day reaches the schedule length it is the union of all
buckets; on the empty schedule it is empty. -/
theorem practice_prefix_union (s : List (Finset α)) (d : ℕ) :
    (∀ x, x ∈ practice s (d : ℤ) ↔ ∃ i, i < d ∧ i < s.length ∧ x ∈ s.getD i ∅)
    ∧ practice s (0 : ℤ) = ∅
    ∧ (s.length ≤ d →
        ∀ x, x ∈ practice s (d : ℤ) ↔ ∃ i, i < s.length ∧ x ∈ s.getD i ∅)
    ∧ practice ([] : List (Finset α)) (d : ℤ) = ∅ := by
  refine ⟨mem_practice_iff s d, by simp [practice], fun hlen x => ?_, ?_⟩
  · rw [mem_practice_iff]
    constructor
    · rintro ⟨i, _, h2, hx⟩
      exact ⟨i, h2, hx⟩
    · rintro ⟨i, h2, hx⟩
      exact ⟨i, by omega, h2, hx⟩
  · rw [practice]
    simp

/-- Witness for C4 on the two-bucket schedule at day 1: only the first
bucket is due. -/
theorem practice_prefix_union_witness :
    ((2 ∈ practice [({2} : Finset ℕ), {5}] ((1 : ℕ) : ℤ)
        ↔ ∃ i, i < 1 ∧ i < 2 ∧ 2 ∈ [({2} : Finset ℕ), {5}].getD i ∅)
      ∧ practice [({2} : Finset ℕ), {5}] (0 : ℤ) = ∅)
    ∧ practice ([] : List (Finset ℕ)) ((1 : ℕ) : ℤ) = ∅ :=
  ⟨⟨(practice_prefix_union [({2} : Finset ℕ), {5}] 1).1 2,
    (practice_prefix_union [({2} : Finset ℕ), {5}] 1).2.1⟩,
    (practice_prefix_union [({2} : Finset ℕ), {5}] 1).2.2.2⟩

/-- C6: when the card is absent from every bucket, update returns the
original store unchanged and the only effect is the single diagnostic
message on the console.error side channel; no exception is possible since
the function is total. -/
theorem update_absent_noop (b : List (ℕ × Finset α)) (c : α)
    (d : AnswerDifficulty) (habs : ∀ p ∈ b, c ∉ p.2) :
    update b c d = b ∧ updateLog b c = ["Flashcard not found in any bucket"] := by
  have h := findCurrentBucket_of_absent habs
  constructor
  · simp [update, h]
  · simp [updateLog, h]

/-- C3 counterexample: for the store holding card 0 alone in bucket 0, the
claim asserts that update with Wrong removes the card from bucket k = 0
(while placing it in bucket max(0, k-1) = 0, the same bucket); in fact the
card is still in bucket 0 afterwards, so the removal clause is false. -/
theorem update_wrong_at_zero_counterexample :
    ¬ ((0 : ℕ) ∉ getBucket
        (update [((0 : ℕ), ({0} : Finset ℕ))] 0 AnswerDifficulty.Wrong) 0) := by
  decide

/-- C3 (amended): for a store b with nodup bucket numbers holding card c in
bucket k and in no other bucket, update with Wrong places c in bucket
max(0, k-1) and, when k is positive, removes it from bucket k; update with
Hard keeps c in bucket k and returns a store equal to b; update with Easy
places c in bucket k+1 and removes it from bucket k.  The only change
forced by the counterexample is the guard k positive on the removal clause
of the Wrong case, which is vacuous for every other input. -/
theorem update_transitions (b : List (ℕ × Finset α)) (c : α) (k : ℕ)
    (hnd : (b.map Prod.fst).Nodup)
    (hck : c ∈ getBucket b k)
    (honly : ∀ j, c ∈ getBucket b j → j = k) :
    (c ∈ getBucket (update b c AnswerDifficulty.Wrong) (k - 1)
      ∧ (0 < k → c ∉ getBucket (update b c AnswerDifficulty.Wrong) k))
    ∧ (c ∈ getBucket (update b c AnswerDifficulty.Hard) k
      ∧ update b c AnswerDifficulty.Hard = b)
    ∧ (c ∈ getBucket (update b c AnswerDifficulty.Easy) (k + 1)
      ∧ c ∉ getBucket (update b c AnswerDifficulty.Easy) k) := by
  have honly' : ∀ p ∈ b, c ∈ p.2 → p.1 = k := fun p hp hcp =>
    honly p.1 ((getBucket_eq_of_mem_nodup hnd hp).symm ▸ hcp)
  have hex : ∃ p ∈ b, c ∈ p.2 := by
    rcases exists_entry_of_mem_getBucket hck with ⟨p, hp, _, h2⟩
    exact ⟨p, hp, h2⟩
  have hfind : findCurrentBucket b c = some k :=
    findCurrentBucket_of_present honly' hex
  have hhard : destBucket k AnswerDifficulty.Hard = k := rfl
  have heasy : destBucket k AnswerDifficulty.Easy = k + 1 := rfl
  refine ⟨⟨?_, ?_⟩, ⟨?_, update_hard_eq hnd hck hfind⟩, ⟨?_, ?_⟩⟩
  · rw [update_getBucket _ hfind (k - 1), destBucket_wrong, if_pos rfl]
    exact Finset.mem_insert_self c _
  · intro hk
    rw [update_getBucket _ hfind k, destBucket_wrong,
      if_neg (by omega : ¬ k = k - 1), if_pos rfl]
    exact Finset.not_mem_erase c _
  · rw [update_getBucket _ hfind k, hhard, if_pos rfl]
    exact Finset.mem_insert_self c _
  · rw [update_getBucket _ hfind (k + 1), heasy, if_pos rfl]
    exact Finset.mem_insert_self c _
  · rw [update_getBucket _ hfind k, heasy,
      if_neg (by omega : ¬ k = k + 1), if_pos rfl]
    exact Finset.not_mem_erase c _

/-- Witness for the amended C3 on the store with card 0 in bucket 0 and
card 5 alone in bucket 2, updating card 5. -/
theorem update_transitions_witness :
    ((5 : ℕ) ∈ getBucket (update [((0 : ℕ), ({0} : Finset ℕ)), (2, {5})] 5
        AnswerDifficulty.Wrong) (2 - 1)
      ∧ (0 < 2 → (5 : ℕ) ∉ getBucket
          (update [((0 : ℕ), ({0} : Finset ℕ)), (2, {5})] 5
            AnswerDifficulty.Wrong) 2))
    ∧ ((5 : ℕ) ∈ getBucket (update [((0 : ℕ), ({0} : Finset ℕ)), (2, {5})] 5
        AnswerDifficulty.Hard) 2
      ∧ update [((0 : ℕ), ({0} : Finset ℕ)), (2, {5})] 5
          AnswerDifficulty.Hard = [((0 : ℕ), ({0} : Finset ℕ)), (2, {5})])
    ∧ ((5 : ℕ) ∈ getBucket (update [((0 : ℕ), ({0} : Finset ℕ)), (2, {5})] 5
        AnswerDifficulty.Easy) (2 + 1)
      ∧ (5 : ℕ) ∉ getBucket (update [((0 : ℕ), ({0} : Finset ℕ)), (2, {5})] 5
          AnswerDifficulty.Easy) 2) :=
  update_transitions [((0 : ℕ), ({0} : Finset ℕ)), (2, {5})] 5 2
    (by decide) (by decide)
    (by
      intro j hj
      rw [getBucket_cons] at hj
      by_cases h0 : (0 : ℕ) = j
      · rw [if_pos h0] at hj
        exact absurd (Finset.mem_singleton.mp hj) (by decide)
      · rw [if_neg h0, getBucket_cons] at hj
        by_cases h2 : (2 : ℕ) = j
        · exact h2.symm
        · rw [if_neg h2, getBucket_nil] at hj
          exact absurd hj (Finset.not_mem_empty 5))

/-- C7: updating a card that is present in a store with nodup bucket
numbers satisfying the no-duplicate invariant yields a store that again
satisfies the invariant, and the origin bucket number stays present as a
key of the result rather than being deleted. -/
theorem update_preserves_invariant (b : List (ℕ × Finset α)) (c : α) (k : ℕ)
    (d : AnswerDifficulty) (hnd : (b.map Prod.fst).Nodup)
    (hinv : StoreInv b) (hck : c ∈ getBucket b k) :
    StoreInv (update b c d) ∧ k ∈ (update b c d).map Prod.fst := by
  have honly' : ∀ p ∈ b, c ∈ p.2 → p.1 = k := fun p hp hcp =>
    hinv c p.1 k ((getBucket_eq_of_mem_nodup hnd hp).symm ▸ hcp) hck
  have hex : ∃ p ∈ b, c ∈ p.2 := by
    rcases exists_entry_of_mem_getBucket hck with ⟨p, hp, _, h2⟩
    exact ⟨p, hp, h2⟩
  have hfind : findCurrentBucket b c = some k :=
    findCurrentBucket_of_present honly' hex
  have hkkey : k ∈ b.map Prod.fst := mem_keys_of_mem_getBucket hck
  refine ⟨?_, keys_update_mono d hfind k hkkey⟩
  by_cases hnbk : destBucket k d = k
  · have hsame : ∀ j, getBucket (update b c d) j = getBucket b j := by
      intro j
      rw [update_getBucket d hfind j, hnbk]
      by_cases hj : j = k
      · rw [if_pos hj, if_pos rfl, Finset.insert_erase hck, hj]
      · rw [if_neg hj, if_neg hj]
    intro x i j hi hj
    rw [hsame] at hi hj
    exact hinv x i j hi hj
  · have hchar : ∀ (m : ℕ) (x0 : α), x0 ∈ getBucket (update b c d) m →
        (x0 = c ∧ m = destBucket k d) ∨ (x0 ≠ c ∧ x0 ∈ getBucket b m) := by
      intro m x0 hm
      rw [update_getBucket d hfind m] at hm
      by_cases h1 : m = destBucket k d
      · rw [if_pos h1, if_neg hnbk] at hm
        rcases Finset.mem_insert.mp hm with h | h
        · exact Or.inl ⟨h, h1⟩
        · by_cases hx : x0 = c
          · exact Or.inl ⟨hx, h1⟩
          · exact Or.inr ⟨hx, by rw [h1]; exact h⟩
      · rw [if_neg h1] at hm
        by_cases h2 : m = k
        · rw [if_pos h2] at hm
          have hxc : x0 ≠ c := fun he => Finset.not_mem_erase c _ (he ▸ hm)
          refine Or.inr ⟨hxc, ?_⟩
          rw [h2]
          exact Finset.mem_of_mem_erase hm
        · rw [if_neg h2] at hm
          by_cases hx : x0 = c
          · exact absurd (hinv c m k (hx ▸ hm) hck) h2
          · exact Or.inr ⟨hx, hm⟩
    intro x i j hi hj
    rcases hchar i x hi with ⟨hxc1, hik⟩ | ⟨hxc1, hib⟩ <;>
      rcases hchar j x hj with ⟨hxc2, hjk⟩ | ⟨hxc2, hjb⟩
    · exact hik.trans hjk.symm
    · exact absurd hxc1 hxc2
    · exact absurd hxc2 hxc1
    · exact hinv x i j hib hjb

/-- Witness for C7 on the store with card 5 alone in bucket 2, updating
card 5 with Easy. -/
theorem update_preserves_invariant_witness :
    StoreInv (update [((2 : ℕ), ({5} : Finset ℕ))] 5 AnswerDifficulty.Easy)
    ∧ (2 : ℕ) ∈ (update [((2 : ℕ), ({5} : Finset ℕ))] 5
        AnswerDifficulty.Easy).map Prod.fst :=
  update_preserves_invariant [((2 : ℕ), ({5} : Finset ℕ))] 5 2
    AnswerDifficulty.Easy (by decide)
    (by
      have hall : ∀ (x m : ℕ),
          x ∈ getBucket [((2 : ℕ), ({5} : Finset ℕ))] m → m = 2 := by
        intro x m hm
        rw [getBucket_cons] at hm
        by_cases h2 : (2 : ℕ) = m
        · exact h2.symm
        · rw [if_neg h2, getBucket_nil] at hm
          exact absurd hm (Finset.not_mem_empty x)
      intro x i j hi hj
      rw [hall x i hi, hall x j hj])
    (by decide)

/-- Witness for C6: updating a card that is in no bucket of the store
mapping bucket 0 to the singleton of card 1. -/
theorem update_absent_noop_witness :
    (∀ p ∈ [((0 : ℕ), ({1} : Finset ℕ))], (0 : ℕ) ∉ p.2)
    ∧ (update [((0 : ℕ), ({1} : Finset ℕ))] 0 AnswerDifficulty.Easy
        = [((0 : ℕ), ({1} : Finset ℕ))]
      ∧ updateLog [((0 : ℕ), ({1} : Finset ℕ))] 0
        = ["Flashcard not found in any bucket"]) :=
  ⟨by decide, update_absent_noop _ _ _ (by decide)⟩

/-- C8: computeProgress returns the count of history entries whose
difficulty ranks Hard or above (that is, Hard or Easy under the ordered
enumeration) divided by the total card count (the sum of all bucket
sizes) times 100, and returns 0 when the total card count is 0; being a
total function, it raises nothing. -/
theorem computeProgress_formula (b : List (ℕ × Finset α))
    (history : List (α × AnswerDifficulty)) :
    computeProgress b history =
      if (b.map fun kv => kv.2.card).sum = 0 then 0
      else ((history.filter (fun e => e.2 = AnswerDifficulty.Hard
            ∨ e.2 = AnswerDifficulty.Easy)).length : ℚ)
          / (((b.map fun kv => kv.2.card).sum : ℕ) : ℚ) * 100 := by
  simp only [computeProgress, foldl_add_card, foldl_success_count,
    Nat.zero_add]

/-- C9: in the schedule produced from a non-empty store with nodup bucket
numbers, every bucket number present in the store is a valid index holding
exactly that bucket's card set, and every other index holds the empty set
(an actual set, never an absent entry, since the index is below the
length). -/
theorem toBucketSets_indexing (b : List (ℕ × Finset α)) (hne : b ≠ [])
    (hnd : (b.map Prod.fst).Nodup) :
    (∀ k ∈ b.map Prod.fst, k < (toBucketSets b).length
      ∧ (toBucketSets b).getD k ∅ = getBucket b k)
    ∧ ∀ i, i < (toBucketSets b).length → i ∉ b.map Prod.fst →
        (toBucketSets b).getD i ∅ = ∅ := by
  have hlen : (toBucketSets b).length = (b.map Prod.fst).foldr max 0 + 1 := by
    simp only [toBucketSets]
    rw [length_foldl_set, List.length_map, List.length_range]
  have hinit : ∀ t ∈ (List.range ((b.map Prod.fst).foldr max 0 + 1)).map
      (fun _ => (∅ : Finset α)), t = ∅ := by
    intro t ht
    rcases List.mem_map.mp ht with ⟨_, _, h⟩
    exact h.symm
  have hbound : ∀ p ∈ b, p.1 < ((List.range ((b.map Prod.fst).foldr max 0 + 1)).map
      (fun _ => (∅ : Finset α))).length := by
    intro p hp
    rw [List.length_map, List.length_range]
    exact Nat.lt_succ_of_le (le_foldr_max (List.mem_map_of_mem Prod.fst hp))
  constructor
  · intro k hk
    refine ⟨?_, ?_⟩
    · rw [hlen]
      exact Nat.lt_succ_of_le (le_foldr_max hk)
    · show (toBucketSets b).getD k ∅ = getBucket b k
      simp only [toBucketSets]
      rw [getD_foldl_set b hnd _ k hbound, if_pos hk]
  · intro i _ hik
    simp only [toBucketSets]
    rw [getD_foldl_set b hnd _ i hbound, if_neg hik]
    exact getD_all_empty _ hinit i

/-- Witness for C9 on the store with card 1 in bucket 2 and card 4 in
bucket 0: index 2 holds bucket 2 and the gap index 1 holds the empty set. -/
theorem toBucketSets_indexing_witness :
    (2 < (toBucketSets [((2 : ℕ), ({1} : Finset ℕ)), (0, {4})]).length
      ∧ (toBucketSets [((2 : ℕ), ({1} : Finset ℕ)), (0, {4})]).getD 2 ∅
          = getBucket [((2 : ℕ), ({1} : Finset ℕ)), (0, {4})] 2)
    ∧ (toBucketSets [((2 : ℕ), ({1} : Finset ℕ)), (0, {4})]).getD 1 ∅ = ∅ :=
  ⟨(toBucketSets_indexing [((2 : ℕ), ({1} : Finset ℕ)), (0, {4})]
      (by decide) (by decide)).1 2 (by decide),
    (toBucketSets_indexing [((2 : ℕ), ({1} : Finset ℕ)), (0, {4})]
      (by decide) (by decide)).2 1 (by decide) (by decide)⟩

/-- C5: getBucketRange returns the absent value exactly when the schedule
has no non-empty set (in particular on the empty schedule); otherwise it
returns the pair of the lowest and highest indices holding a non-empty
set: both components are valid indices holding non-empty sets, the
minimum is at most the maximum, and every index holding a non-empty set
lies between them. -/
theorem getBucketRange_spec (s : List (Finset α)) :
    (getBucketRange s = none ↔ ∀ t ∈ s, t = ∅)
    ∧ ∀ mn mx : ℤ, getBucketRange s = some (mn, mx) →
        0 ≤ mn ∧ mn ≤ mx ∧ mx < (s.length : ℤ)
        ∧ (s.getD mn.toNat ∅).Nonempty ∧ (s.getD mx.toNat ∅).Nonempty
        ∧ ∀ j : ℕ, j < s.length → (s.getD j ∅).Nonempty →
            mn ≤ (j : ℤ) ∧ (j : ℤ) ≤ mx := by
  have hfst := rangeGo_fst s 0 (-1, -1)
  have hsnd := rangeGo_snd s 0 (-1, -1)
  constructor
  · constructor
    · intro h
      by_cases hc : (rangeGo 0 s (-1, -1)).1 = -1
      · cases hf : firstNE s with
        | some j =>
          rw [hf] at hfst
          simp at hfst
          rw [hfst] at hc
          have hj0 : (0 : ℤ) ≤ (j : ℤ) := Int.natCast_nonneg j
          omega
        | none =>
          intro t ht
          have hcard := (firstNE_none_iff s).mp hf t ht
          exact Finset.card_eq_zero.mp (by omega)
      · exfalso
        simp only [getBucketRange] at h
        rw [if_neg hc] at h
        exact absurd h (by simp)
    · intro hall
      have hf : firstNE s = none :=
        (firstNE_none_iff s).mpr (fun t ht => by rw [hall t ht]; simp)
      rw [hf] at hfst
      simp at hfst
      simp only [getBucketRange]
      rw [if_pos hfst]
  · intro mn mx hmm
    simp only [getBucketRange] at hmm
    by_cases hc : (rangeGo 0 s (-1, -1)).1 = -1
    · rw [if_pos hc] at hmm
      exact absurd hmm (by simp)
    · rw [if_neg hc] at hmm
      have hp : rangeGo 0 s (-1, -1) = (mn, mx) := Option.some_inj.mp hmm
      cases hf : firstNE s with
      | none =>
        rw [hf] at hfst
        simp at hfst
        exact absurd hfst hc
      | some j1 =>
        rw [hf] at hfst
        simp at hfst
        cases hl : lastNE s with
        | none =>
          have h1 : firstNE s = none :=
            (firstNE_none_iff s).mpr ((lastNE_none_iff s).mp hl)
          rw [hf] at h1
          exact absurd h1 (by simp)
        | some j2 =>
          rw [hl] at hsnd
          simp at hsnd
          have hmn : mn = (j1 : ℤ) :=
            ((congrArg Prod.fst hp).symm.trans hfst)
          have hmx : mx = (j2 : ℤ) :=
            ((congrArg Prod.snd hp).symm.trans hsnd)
          subst hmn
          subst hmx
          rcases firstNE_some_spec s j1 hf with ⟨hf1, hf2, hf3⟩
          rcases lastNE_some_spec s j2 hl with ⟨hl1, hl2, hl3⟩
          have hj12 : j1 ≤ j2 := by
            by_contra hlt
            exact (hf3 j2 (by omega)) hl2
          refine ⟨Int.natCast_nonneg j1, by exact_mod_cast hj12,
            by exact_mod_cast hl1, ?_, ?_, ?_⟩
          · rw [Int.toNat_natCast]
            exact Finset.card_pos.mp hf2
          · rw [Int.toNat_natCast]
            exact Finset.card_pos.mp hl2
          · intro j hj hne
            constructor
            · by_contra hlt
              push_neg at hlt
              have hjj : j < j1 := by exact_mod_cast hlt
              exact (hf3 j hjj) (Finset.card_pos.mpr hne)
            · by_contra hlt
              push_neg at hlt
              have hjj : j2 < j := by exact_mod_cast hlt
              exact (hl3 j hjj hj) (Finset.card_pos.mpr hne)

/-- Witness for C5 on the schedule whose only non-empty set sits at
index 1: the range is the pair of 1 with itself. -/
theorem getBucketRange_spec_witness :
    0 ≤ (1 : ℤ) ∧ (1 : ℤ) ≤ (1 : ℤ)
    ∧ (1 : ℤ) < (([(∅ : Finset ℕ), {0}]).length : ℤ)
    ∧ (([(∅ : Finset ℕ), {0}]).getD (1 : ℤ).toNat ∅).Nonempty
    ∧ (([(∅ : Finset ℕ), {0}]).getD (1 : ℤ).toNat ∅).Nonempty :=
  have h := (getBucketRange_spec [(∅ : Finset ℕ), {0}]).2 1 1 (by decide)
  ⟨h.1, h.2.1, h.2.2.1, h.2.2.2.1, h.2.2.2.2.1⟩

end Claims
